import Mathlib

/-!
Shallow embedding, in Lean, of the file-extension normalization, migration,
onsite check-in and registration-confirmation logic of the ESP website
repository, together with proofs of the behavioural properties claimed for
them.  Pure Python functions become Lean functions on `String`/`List Char`
(Python `str.lower` is modelled on its ASCII fragment via `Char.toLower`);
the filesystem, the database and HTTP state become explicit values threaded
through the operations; fallible steps return `Except`.
-/

namespace ESPWeb

/-- Lowercase every character of a list (model of Python `str.lower()` on ASCII). -/
def lowerChars (l : List Char) : List Char := l.map Char.toLower

/-- `os.path.splitext` on a reversed character list. -/
def splitextRev (r : List Char) : List Char × List Char :=
  let seg := r.takeWhile (· != '/')
  let extRev := seg.takeWhile (· != '.')
  let rest := seg.dropWhile (· != '.')
  if rest.tail.any (· != '.') then (extRev ++ ['.'], rest.tail ++ r.dropWhile (· != '/'))
  else ([], r)

/-- Model of Python `os.path.splitext` (posix): returns `(root, ext)`. -/
def splitext (p : String) : String × String :=
  let pr := splitextRev p.data.reverse
  (⟨pr.2.reverse⟩, ⟨pr.1.reverse⟩)

/-- Python `str.rsplit('/', 1)` for a string containing `'/'`:
the pieces before and after the last `'/'`. -/
def rsplitSlash (l : List Char) : List Char × List Char :=
  let r := l.reverse
  (((r.dropWhile (· != '/')).tail).reverse, (r.takeWhile (· != '/')).reverse)

/-- `LowercaseExtensionStorage._normalize_filename` from `esp/web/storage.py`:
keep the base name's case, lowercase the extension (ASCII model of `str.lower`). -/
def normalize_filename (name : String) : String :=
  if name = "" then name
  else
    let root := (splitext name).1
    let ext := (splitext name).2
    if ext = "" then name
    else if root.data.contains '/' then
      let dp := rsplitSlash root.data
      ⟨dp.1 ++ '/' :: (dp.2 ++ lowerChars ext.data)⟩
    else ⟨root.data ++ lowerChars ext.data⟩

/-- The normalization described by the spec's own words: lowercase exactly
"the substring following the final path segment's last period, if any",
preserving everything else; names whose final segment has no period are
returned unchanged. -/
def spec_normalize (name : String) : String :=
  let r := name.data.reverse
  let seg := r.takeWhile (· != '/')
  let extRev := seg.takeWhile (· != '.')
  if seg.contains '.' then ⟨(r.drop extRev.length).reverse ++ (lowerChars extRev).reverse⟩
  else name

/-- A final path segment that consists only of periods up to its last period
(a "dotfile" like `.JPG` or `..JPG`): `os.path.splitext` treats it as having
no extension. -/
def dotfileSegment (name : String) : Bool :=
  let seg := name.data.reverse.takeWhile (· != '/')
  seg.contains '.' && !(((seg.dropWhile (· != '.')).tail).any (· != '.'))

/-- Python whitespace characters stripped by `str.strip()` (ASCII fragment). -/
def isPySpace (c : Char) : Bool :=
  c = ' ' || c = '\t' || c = '\n' || c = '\r' || c = '\x0b' || c = '\x0c'

/-- Python `str.strip()`: remove leading and trailing whitespace. -/
def pyStrip (s : String) : String :=
  ⟨(((s.data.dropWhile isPySpace).reverse.dropWhile isPySpace)).reverse⟩

/-- `_preserve_basename_lowercase_extension` from `esp/web/filebrowser_patches.py`:
wraps filebrowser's `convert_filename`, keeping the stripped raw basename and
lowercasing only the extension. -/
def preserve_basename_lowercase_extension (convert : String → String) (name : String) :
    String :=
  let raw := pyStrip name
  if raw = "" then raw
  else
    let converted := convert raw
    if converted.data.contains '/' then converted
    else
      let root := (splitext raw).1
      let ext := (splitext raw).2
      if ext ≠ "" then ⟨root.data ++ lowerChars ext.data⟩
      else converted

/-- Python `str.isdigit()` (ASCII model): nonempty and all digits. -/
def pyIsDigit (s : String) : Bool := !s.data.isEmpty && s.data.all Char.isDigit

/-- Modelled from the spec: the persistent state the onsite check-in endpoint
touches — registered user ids, those with student status, and those already
marked attended. The `OnSiteCheckinModule.ajaxbarcodecheckin` handler itself is
not part of the provided sources (only its tests are). -/
structure CheckinState where
  users : List Nat
  students : List Nat
  attended : List Nat
deriving DecidableEq

/-- Python `int()` on an all-digit string: base-10 value of the digits. -/
def pyInt (s : String) : Nat :=
  s.data.foldl (fun acc c => acc * 10 + (c.toNat - 48)) 0

/-- Modelled from the spec: the check-in endpoint validates that the code is
all digits before any lookup, then reports not-a-user / not-a-student /
already-checked-in, or marks the student attended. -/
def ajaxbarcodecheckin (code : String) (st : CheckinState) : CheckinState × String :=
  if !pyIsDigit code then
    (st, code ++ " is not a valid user ID (must be numeric)")
  else
    let n := pyInt code
    if n ∉ st.users then (st, code ++ " is not a user")
    else if n ∉ st.students then (st, code ++ " is not a student")
    else if n ∈ st.attended then (st, code ++ " is already checked in")
    else ({ st with attended := n :: st.attended }, code ++ " is now checked in")

/-- Modelled from the spec: confirmation records and sent notification emails,
both keyed by (user, program). The `confirm_registration` view itself is not
part of the provided sources (only its tests are). -/
structure ConfirmState where
  records : List (Nat × Nat)
  emails : List (Nat × Nat)
deriving DecidableEq

/-- Modelled from the spec: on a confirmation request, if no record exists for
(user, program), create one and send the notification email; otherwise do
nothing (no new record, no duplicate email). -/
def confirm_registration (u p : Nat) (st : ConfirmState) : ConfirmState :=
  if (u, p) ∈ st.records then st
  else { records := (u, p) :: st.records, emails := (u, p) :: st.emails }

/-- States reachable from the empty store by any sequence of confirmations. -/
inductive ConfirmReachable : ConfirmState → Prop where
  | init : ConfirmReachable ⟨[], []⟩
  | step (u p : Nat) {st : ConfirmState} :
      ConfirmReachable st → ConfirmReachable (confirm_registration u p st)

/-- A file found by the `os.walk` scan: the directory it is in and its name. -/
structure ScannedFile where
  dir : String
  filename : String
deriving DecidableEq

/-- `os.path.flatten(root, filename)` for a relative filename. -/
def pathJoin (d f : String) : String := ⟨d.data ++ '/' :: f.data⟩

/-- The filesystem as an association of paths to file contents. -/
abbrev FileSys := List (String × String)

/-- `os.path.exists`. -/
def fsExists (fs : FileSys) (p : String) : Bool := fs.any (fun e => e.1 == p)

/-- Content lookup. -/
def fsGet (fs : FileSys) (p : String) : Option String := fs.lookup p

/-- `os.rename src dst`: moves the content at `src` to `dst`, silently
replacing anything previously at `dst` (POSIX semantics). -/
def osRename (fs : FileSys) (src dst : String) : FileSys :=
  match fs.lookup src with
  | none => fs
  | some content => (dst, content) :: fs.filter (fun e => e.1 != src && e.1 != dst)

/-- One entry of `files_with_uppercase_ext` in `Command.handle`
(`MEDIA_ROOT` is modelled as the empty prefix, so relative and full
paths coincide). -/
structure FileInfo where
  old_path : String
  old_filename : String
  new_filename : String
  full_old_path : String
  full_new_path : String
deriving DecidableEq

/-- The scan loop of `Command.handle`: collect every file whose extension is
nonempty and differs from its lowercase form. -/
def scanFiles (walk : List ScannedFile) : List FileInfo :=
  walk.filterMap (fun sf =>
    let root_name := (splitext sf.filename).1
    let ext := (splitext sf.filename).2
    if ext ≠ "" ∧ ext.data ≠ lowerChars ext.data then
      some { old_path := pathJoin sf.dir sf.filename,
             old_filename := sf.filename,
             new_filename := ⟨root_name.data ++ lowerChars ext.data⟩,
             full_old_path := pathJoin sf.dir sf.filename,
             full_new_path := pathJoin sf.dir ⟨root_name.data ++ lowerChars ext.data⟩ }
    else none)

/-- What the rename loop did for one file. -/
inductive RenameAction where
  | caseOnly       -- `old.lower() == new.lower()`: temp-name dance
  | missingSource  -- case-only branch, but the source does not exist
  | skippedExists  -- target exists and paths do not match case-insensitively
  | plain          -- direct rename
deriving DecidableEq

/-- One iteration of the rename loop in `Command.handle` (lines 145-197):
returns the new filesystem, what happened, and whether the file was appended
to `renamed_files`. -/
def renameOne (fs : FileSys) (fi : FileInfo) : FileSys × RenameAction × Bool :=
  if lowerChars fi.full_old_path.data = lowerChars fi.full_new_path.data then
    if fsExists fs fi.full_old_path then
      let temp : String := ⟨fi.full_old_path.data ++ ".temp_rename".data⟩
      (osRename (osRename fs fi.full_old_path temp) temp fi.full_new_path,
        RenameAction.caseOnly, true)
    else (fs, RenameAction.missingSource, false)
  else if fsExists fs fi.full_new_path then (fs, RenameAction.skippedExists, false)
  else (osRename fs fi.full_old_path fi.full_new_path, RenameAction.plain, true)

/-- The whole rename loop: fold `renameOne` over the scanned files, collecting
the renamed ones and the actions taken. -/
def renamePhase (fs : FileSys) : List FileInfo → FileSys × List FileInfo × List RenameAction
  | [] => (fs, [], [])
  | fi :: rest =>
    let r := renameOne fs fi
    let rec2 := renamePhase r.1 rest
    (rec2.1, (if r.2.2 then [fi] else []) ++ rec2.2.1, r.2.1 :: rec2.2.2)

/-- `Command.handle`: scan, then either report (dry run) or rename and update
the database (the reference-fixup is abstracted as `updateRefs`; errors and
the surrounding transaction are not modelled here, see
`updateDatabaseReferences` for the fixup itself). -/
def commandHandle {δ : Type} (dryRun : Bool) (walk : List ScannedFile) (fs : FileSys)
    (db : δ) (updateRefs : List FileInfo → δ → δ) :
    FileSys × δ × List (String × String) :=
  let files := scanFiles walk
  if files.isEmpty then (fs, db, [])
  else if dryRun then (fs, db, files.map (fun fi => (fi.old_path, fi.new_filename)))
  else
    let r := renamePhase fs files
    let db2 := if r.2.1.isEmpty then db else updateRefs r.2.1 db
    (r.1, db2, files.map (fun fi => (fi.old_path, fi.new_filename)))

/-- Python `old in s` (substring containment). -/
def hasSub : List Char → List Char → Bool
  | [], pat => pat.isPrefixOf ([] : List Char)
  | c :: t, pat => pat.isPrefixOf (c :: t) || hasSub t pat

/-- Python `s.replace(old, new)`: left-to-right, non-overlapping (the fuel is
the input length, which the recursion never exhausts). -/
def replaceSubAux : Nat → List Char → List Char → List Char → List Char
  | 0, s, _, _ => s
  | fuel + 1, s, old, new =>
    match s with
    | [] => []
    | c :: t =>
      if old.isPrefixOf (c :: t) && !old.isEmpty then
        new ++ replaceSubAux fuel ((c :: t).drop old.length) old new
      else c :: replaceSubAux fuel t old new

/-- Python `s.replace(old, new)`. -/
def replaceSub (s old new : List Char) : List Char := replaceSubAux s.length s old new

/-- A database object: primary key, its file fields with current values, and
the fields whose `save()` raises. -/
structure DBObject where
  pk : Nat
  fields : List (String × String)
  failing : List String
deriving DecidableEq

/-- A database model: its name and its objects. -/
structure DBModel where
  mname : String
  objs : List DBObject
deriving DecidableEq

/-- An installed app: `get_models()` either returns its models or raises. -/
structure AppCfg where
  models : Except String (List DBModel)

/-- The `file_mapping` dict built by `_update_database_references`. -/
def fileMapping (renamed : List FileInfo) : List (String × String) :=
  renamed.map (fun fi =>
    (fi.old_path, ⟨replaceSub fi.old_path.data fi.old_filename.data fi.new_filename.data⟩))

/-- The error message recorded for a per-object update failure. -/
def updateErrMsg (mname fname : String) (pk : Nat) : String :=
  "Error updating " ++ mname ++ "." ++ fname ++ " (ID: " ++ toString pk ++ ")"

/-- The inner mapping loop for one field value: scan `file_mapping`; on each
entry whose old path occurs in the original value, set the field (from the
original value, as the source does) and save, which may raise.  Returns the
persisted value, the number of successful saves, and whether it raised. -/
def applyMapping (orig : String) (failing : Bool) :
    List (String × String) → String → String × Nat × Bool
  | [], cur => (cur, 0, false)
  | (o, n) :: rest, cur =>
    if hasSub orig.data o.data then
      if failing then (cur, 0, true)
      else
        let cur2 : String := ⟨replaceSub orig.data o.data n.data⟩
        let r := applyMapping orig failing rest cur2
        (r.1, r.2.1 + 1, r.2.2)
    else applyMapping orig failing rest cur

/-- Per-field processing: empty values are skipped (`if not old_value`). -/
def processField (mapping : List (String × String)) (v : String) (failing : Bool) :
    String × Nat × Bool :=
  if v = "" then (v, 0, false)
  else applyMapping v failing mapping v

/-- Per-object processing: each field's block is wrapped in try/except, so a
failure is recorded and the remaining fields still run. -/
def processFields (mapping : List (String × String)) (mname : String) (pk : Nat)
    (failing : List String) :
    List (String × String) → List (String × String) × Nat × List String
  | [] => ([], 0, [])
  | (fname, v) :: rest =>
    let r := processField mapping v (fname ∈ failing)
    let rr := processFields mapping mname pk failing rest
    ((fname, r.1) :: rr.1, r.2.1 + rr.2.1,
      (if r.2.2 then [updateErrMsg mname fname pk] else []) ++ rr.2.2)

def processObj (mapping : List (String × String)) (mname : String) (obj : DBObject) :
    DBObject × Nat × List String :=
  let r := processFields mapping mname obj.pk obj.failing obj.fields
  ({ obj with fields := r.1 }, r.2.1, r.2.2)

def processModel (mapping : List (String × String)) (m : DBModel) :
    DBModel × Nat × List String :=
  let r := m.objs.foldr
    (fun obj acc =>
      let o := processObj mapping m.mname obj
      (o.1 :: acc.1, o.2.1 + acc.2.1, o.2.2 ++ acc.2.2))
    ([], 0, [])
  ({ m with objs := r.1 }, r.2.1, r.2.2)

/-- Processing of one app's model list. -/
def processApp (mapping : List (String × String)) (ms : List DBModel) :
    List DBModel × Nat × List String :=
  ms.foldr
    (fun m mr =>
      let p := processModel mapping m
      (p.1 :: mr.1, p.2.1 + mr.2.1, p.2.2 ++ mr.2.2))
    ([], 0, [])

/-- One step of the app iteration: a `get_models()` error re-raises, otherwise
the app's objects are processed and folded into the accumulator. -/
def udrStep (mapping : List (String × String)) (a : AppCfg)
    (acc : Except String (List (List DBModel) × Nat × List String)) :
    Except String (List (List DBModel) × Nat × List String) :=
  match a.models, acc with
  | Except.error e, _ => Except.error e
  | _, Except.error e => Except.error e
  | Except.ok ms, Except.ok r =>
    let pm := processApp mapping ms
    Except.ok (pm.1 :: r.1, pm.2.1 + r.2.1, pm.2.2 ++ r.2.2)

/-- `_update_database_references`: iterate apps and models (enumeration errors
re-raise), objects and fields (per-object errors are collected).  Returns the
updated models per app, the update count, and the collected error messages. -/
def updateDatabaseReferences (renamed : List FileInfo)
    (apps : Except String (List AppCfg)) :
    Except String (List (List DBModel) × Nat × List String) :=
  match apps with
  | Except.error e => Except.error e
  | Except.ok cfgs => cfgs.foldr (udrStep (fileMapping renamed)) (Except.ok ([], 0, []))

/-- Declarative characterisation of a field whose update raises: nonempty
value, a mapping entry occurring in it, and a failing `save()`. -/
def fieldFails (mapping : List (String × String)) (failing : List String)
    (fname v : String) : Bool :=
  !(v == "") && decide (fname ∈ failing) && mapping.any (fun en => hasSub v.data en.1.data)

/-- The error messages one object contributes, per the spec: one per failing
field, in field order. -/
def objErrors (mapping : List (String × String)) (mname : String) (obj : DBObject) :
    List String :=
  (obj.fields.filter (fun fv => fieldFails mapping obj.failing fv.1 fv.2)).map
    (fun fv => updateErrMsg mname fv.1 obj.pk)

def modelErrors (mapping : List (String × String)) (m : DBModel) : List String :=
  (m.objs.map (objErrors mapping m.mname)).flatten

/-- All error messages a full run collects, in traversal order. -/
def collectedErrors (mapping : List (String × String)) (mss : List (List DBModel)) :
    List String :=
  (mss.map (fun ms => (ms.map (modelErrors mapping)).flatten)).flatten

/-- `LowercaseExtensionStorage.save`: normalize the name, then delegate to the
parent `FileSystemStorage.save` (an external collaborator, passed as a
function). -/
def storage_save {α : Type} (parentSave : String → α) (name : String) : α :=
  parentSave (normalize_filename name)

theorem toNat_ofNat_valid (n : Nat) (h : n.isValidChar) : (Char.ofNat n).toNat = n := by
  unfold Char.ofNat
  rw [dif_pos h]
  rfl

theorem toLower_toNat (c : Char) :
    (Char.toLower c).toNat = if 65 ≤ c.toNat ∧ c.toNat ≤ 90 then c.toNat + 32 else c.toNat := by
  unfold Char.toLower
  split
  · rename_i h
    rw [if_pos (by omega)]
    exact toNat_ofNat_valid _ (Or.inl (by omega))
  · rename_i h
    rw [if_neg (by omega)]

theorem toNat_inj_char (c d : Char) (h : c.toNat = d.toNat) : c = d :=
  Char.eq_of_val_eq (UInt32.ext h)

theorem toLower_idem (c : Char) : Char.toLower (Char.toLower c) = Char.toLower c := by
  apply toNat_inj_char
  rw [toLower_toNat, toLower_toNat]
  by_cases h : 65 ≤ c.toNat ∧ c.toNat ≤ 90
  · rw [if_pos h, if_neg (by omega)]
  · rw [if_neg h, if_neg h]

theorem toLower_eq_dot_iff (c : Char) : Char.toLower c = '.' ↔ c = '.' := by
  constructor
  · intro h
    have h2 : (Char.toLower c).toNat = 46 := by rw [h]; rfl
    rw [toLower_toNat] at h2
    apply toNat_inj_char
    have hd : ('.' : Char).toNat = 46 := rfl
    rw [hd]
    split at h2 <;> omega
  · intro h; subst h; rfl

theorem toLower_eq_slash_iff (c : Char) : Char.toLower c = '/' ↔ c = '/' := by
  constructor
  · intro h
    have h2 : (Char.toLower c).toNat = 47 := by rw [h]; rfl
    rw [toLower_toNat] at h2
    apply toNat_inj_char
    have hd : ('/' : Char).toNat = 47 := rfl
    rw [hd]
    split at h2 <;> omega
  · intro h; subst h; rfl

/-- If `dropWhile` returns a cons, its head fails the predicate. -/
theorem dropWhile_head_false {α : Type} {p : α → Bool} {l : List α} {a : α} {as : List α}
    (h : l.dropWhile p = a :: as) : p a = false := by
  induction l with
  | nil => simp at h
  | cons x xs ih =>
    rw [List.dropWhile_cons] at h
    split at h
    · exact ih h
    · rename_i hx
      cases h
      simpa using hx

/-- Decomposition: ext ++ root = the reversed input. -/
theorem splitextRev_append (r : List Char) :
    (splitextRev r).1 ++ (splitextRev r).2 = r := by
  unfold splitextRev
  simp only []
  split
  · rename_i hany
    cases hr : (r.takeWhile (· != '/')).dropWhile (· != '.') with
    | nil => rw [hr] at hany; simp at hany
    | cons d tl =>
      have hd : d = '.' := by simpa using dropWhile_head_false hr
      subst hd
      have hseg : (r.takeWhile (· != '/')).takeWhile (· != '.') ++ ('.' :: tl)
          = r.takeWhile (· != '/') := by
        rw [← hr]
        exact List.takeWhile_append_dropWhile _ _
      calc ((r.takeWhile (· != '/')).takeWhile (· != '.') ++ ['.'])
            ++ (tl ++ r.dropWhile (· != '/'))
          = ((r.takeWhile (· != '/')).takeWhile (· != '.') ++ ('.' :: tl))
            ++ r.dropWhile (· != '/') := by simp
        _ = r.takeWhile (· != '/') ++ r.dropWhile (· != '/') := by rw [hseg]
        _ = r := List.takeWhile_append_dropWhile _ _
  · simp

/-- Branch equation: when the extension condition holds. -/
theorem splitextRev_eq_pos (r : List Char)
    (hC : (((r.takeWhile (· != '/')).dropWhile (· != '.')).tail.any (· != '.')) = true) :
    splitextRev r = ((r.takeWhile (· != '/')).takeWhile (· != '.') ++ ['.'],
      ((r.takeWhile (· != '/')).dropWhile (· != '.')).tail ++ r.dropWhile (· != '/')) := by
  unfold splitextRev
  simp only []
  rw [if_pos hC]

/-- Branch equation: when the extension condition fails. -/
theorem splitextRev_eq_neg (r : List Char)
    (hC : ¬ ((((r.takeWhile (· != '/')).dropWhile (· != '.')).tail.any (· != '.')) = true)) :
    splitextRev r = ([], r) := by
  unfold splitextRev
  simp only []
  rw [if_neg hC]

theorem lowerChars_ne_dot {l : List Char} (h : ∀ c ∈ l, (c != '.') = true) :
    ∀ c ∈ lowerChars l, (c != '.') = true := by
  intro c hc
  simp only [lowerChars, List.mem_map] at hc
  obtain ⟨a, ha, rfl⟩ := hc
  have := h a ha
  simp only [bne_iff_ne, ne_eq] at this ⊢
  intro hcon
  exact this ((toLower_eq_dot_iff a).mp hcon)

theorem lowerChars_ne_slash {l : List Char} (h : ∀ c ∈ l, (c != '/') = true) :
    ∀ c ∈ lowerChars l, (c != '/') = true := by
  intro c hc
  simp only [lowerChars, List.mem_map] at hc
  obtain ⟨a, ha, rfl⟩ := hc
  have := h a ha
  simp only [bne_iff_ne, ne_eq] at this ⊢
  intro hcon
  exact this ((toLower_eq_slash_iff a).mp hcon)

/-- Key lemma: re-splitting after lowercasing the extension recovers the same split. -/
theorem splitextRev_lower (r : List Char) (h : (splitextRev r).1 ≠ []) :
    splitextRev (lowerChars (splitextRev r).1 ++ (splitextRev r).2)
      = (lowerChars (splitextRev r).1, (splitextRev r).2) := by
  by_cases hC : (((r.takeWhile (· != '/')).dropWhile (· != '.')).tail.any (· != '.')) = true
  · rw [splitextRev_eq_pos r hC] at h ⊢
    cases hrest : (r.takeWhile (· != '/')).dropWhile (· != '.') with
    | nil => rw [hrest] at hC; simp at hC
    | cons d tl =>
      have hd : d = '.' := by simpa using dropWhile_head_false hrest
      subst hd
      rw [hrest] at hC
      simp only [List.tail_cons] at hC ⊢
      -- abbreviations
      have hTWslash : ∀ c ∈ r.takeWhile (· != '/'), (c != '/') = true :=
        fun _ hc => List.mem_takeWhile_imp (p := (· != '/')) hc
      have hTWdot : ∀ c ∈ (r.takeWhile (· != '/')).takeWhile (· != '.'), (c != '.') = true :=
        fun _ hc => List.mem_takeWhile_imp (p := (· != '.')) hc
      have hTWslash2 : ∀ c ∈ (r.takeWhile (· != '/')).takeWhile (· != '.'), (c != '/') = true :=
        fun c hc => hTWslash c (List.takeWhile_subset _ hc)
      have htl : ∀ c ∈ tl, (c != '/') = true := by
        intro c hc
        apply hTWslash
        have hsub : ('.' :: tl) ⊆ r.takeWhile (· != '/') := by
          rw [← hrest]
          exact (List.dropWhile_sublist _).subset
        exact hsub (List.mem_cons_of_mem _ hc)
      -- lowercased extension pieces
      have hLdot : ∀ c ∈ lowerChars ((r.takeWhile (· != '/')).takeWhile (· != '.')),
          (c != '.') = true := lowerChars_ne_dot hTWdot
      have hLslash : ∀ c ∈ lowerChars ((r.takeWhile (· != '/')).takeWhile (· != '.')),
          (c != '/') = true := lowerChars_ne_slash hTWslash2
      -- the lowercased input decomposes
      have hlow : lowerChars ((r.takeWhile (· != '/')).takeWhile (· != '.') ++ ['.'])
          = lowerChars ((r.takeWhile (· != '/')).takeWhile (· != '.')) ++ ['.'] := by
        simp [lowerChars]
      rw [hlow]
      -- tail of r after the basename: either empty or starts with '/'
      have htailr : (r.dropWhile (· != '/')).takeWhile (· != '/') = []
          ∧ (r.dropWhile (· != '/')).dropWhile (· != '/') = r.dropWhile (· != '/') := by
        cases htr : r.dropWhile (· != '/') with
        | nil => simp
        | cons x xs =>
          have hx : (x != '/') = false := dropWhile_head_false (p := (· != '/')) htr
          constructor
          · rw [List.takeWhile_cons_of_neg (by simp [hx])]
          · rw [List.dropWhile_cons_of_neg (by simp [hx])]
      obtain htr1 := htailr.1
      obtain htr2 := htailr.2
      set TW := (r.takeWhile (· != '/')).takeWhile (· != '.') with hTWdef
      set tailr := r.dropWhile (· != '/') with htailrdef
      have hassoc : (lowerChars TW ++ ['.']) ++ (tl ++ tailr)
          = (lowerChars TW ++ '.' :: tl) ++ tailr := by simp
      rw [hassoc]
      have hall : ∀ c ∈ lowerChars TW ++ '.' :: tl, (c != '/') = true := by
        intro c hc
        rcases List.mem_append.mp hc with h1 | h1
        · exact hLslash c h1
        · rcases List.mem_cons.mp h1 with rfl | h2
          · rfl
          · exact htl c h2
      have hA : ((lowerChars TW ++ '.' :: tl) ++ tailr).takeWhile (· != '/')
          = lowerChars TW ++ '.' :: tl := by
        rw [List.takeWhile_append_of_pos hall, htr1, List.append_nil]
      have hD : ((lowerChars TW ++ '.' :: tl) ++ tailr).dropWhile (· != '/') = tailr := by
        rw [List.dropWhile_append_of_pos hall, htr2]
      have hE : (lowerChars TW ++ '.' :: tl).takeWhile (· != '.') = lowerChars TW := by
        rw [List.takeWhile_append_of_pos hLdot, List.takeWhile_cons_of_neg (by simp),
          List.append_nil]
      have hF : (lowerChars TW ++ '.' :: tl).dropWhile (· != '.') = '.' :: tl := by
        rw [List.dropWhile_append_of_pos hLdot, List.dropWhile_cons_of_neg (by simp)]
      have hC2 : ((((lowerChars TW ++ '.' :: tl) ++ tailr).takeWhile (· != '/')).dropWhile
          (· != '.')).tail.any (· != '.') = true := by
        rw [hA, hF]
        simpa using hC
      rw [splitextRev_eq_pos _ hC2, hA, hD, hE, hF]
      simp
  · have h2 : splitextRev r = ([], r) := splitextRev_eq_neg r hC
    rw [h2] at h
    simp at h

/-- Reconstruction: `rsplit('/', 1)` followed by re-joining is the identity. -/
theorem rsplitSlash_append {l : List Char} (h : '/' ∈ l) :
    (rsplitSlash l).1 ++ '/' :: (rsplitSlash l).2 = l := by
  unfold rsplitSlash
  simp only []
  have hmem : '/' ∈ l.reverse := List.mem_reverse.mpr h
  cases htr : l.reverse.dropWhile (· != '/') with
  | nil =>
    exfalso
    have := (List.dropWhile_eq_nil_iff).mp htr _ hmem
    simp at this
  | cons x xs =>
    have hx : x = '/' := by simpa using dropWhile_head_false htr
    subst hx
    have hdec : l.reverse.takeWhile (· != '/') ++ '/' :: xs = l.reverse := by
      rw [← htr]
      exact List.takeWhile_append_dropWhile _ _
    simp only [List.tail_cons]
    have := congrArg List.reverse hdec
    simp only [List.reverse_append, List.reverse_cons, List.reverse_reverse] at this
    calc xs.reverse ++ '/' :: (l.reverse.takeWhile (· != '/')).reverse
        = (xs.reverse ++ ['/']) ++ (l.reverse.takeWhile (· != '/')).reverse := by simp
      _ = l := by
          conv_rhs => rw [← this]

/-- When there is no extension, the filename is returned unchanged. -/
theorem normalize_filename_noext {p : String} (h : (splitext p).2 = "") :
    normalize_filename p = p := by
  unfold normalize_filename
  simp only [h]
  split
  · rfl
  · simp

/-- With a nonempty extension, the result is always root ++ lowercased extension
(the directory branch reconstructs the root unchanged). -/
theorem normalize_filename_eq {p : String} (h : (splitext p).2 ≠ "") :
    normalize_filename p = ⟨(splitext p).1.data ++ lowerChars (splitext p).2.data⟩ := by
  have hp : p ≠ "" := by
    intro hp
    subst hp
    exact h (by decide)
  unfold normalize_filename
  simp only []
  rw [if_neg hp, if_neg h]
  split
  · rename_i hsl
    have hsl2 : '/' ∈ (splitext p).1.data := by simpa using hsl
    have hrec := rsplitSlash_append hsl2
    apply String.ext
    show _ = (splitext p).1.data ++ lowerChars (splitext p).2.data
    calc (rsplitSlash (splitext p).1.data).1
          ++ '/' :: ((rsplitSlash (splitext p).1.data).2 ++ lowerChars (splitext p).2.data)
        = ((rsplitSlash (splitext p).1.data).1 ++ '/' :: (rsplitSlash (splitext p).1.data).2)
          ++ lowerChars (splitext p).2.data := by simp
      _ = (splitext p).1.data ++ lowerChars (splitext p).2.data := by rw [hrec]
  · rfl

theorem splitext_data_root {p : String} :
    (splitext p).1.data = (splitextRev p.data.reverse).2.reverse := rfl

theorem splitext_data_ext {p : String} :
    (splitext p).2.data = (splitextRev p.data.reverse).1.reverse := rfl

theorem ext_ne_empty_iff {p : String} :
    (splitext p).2 ≠ "" ↔ (splitextRev p.data.reverse).1 ≠ [] := by
  rw [ne_eq, String.ext_iff, splitext_data_ext]
  simp

theorem splitext_mk (l : List Char) :
    splitext ⟨l⟩ = (⟨(splitextRev l.reverse).2.reverse⟩, ⟨(splitextRev l.reverse).1.reverse⟩) :=
  rfl

/-- Splitting the normalized name recovers the same root and the lowercased ext. -/
theorem splitext_normalize {p : String} (h : (splitext p).2 ≠ "") :
    splitext (normalize_filename p)
      = ((splitext p).1, ⟨lowerChars (splitext p).2.data⟩) := by
  rw [normalize_filename_eq h]
  have hne : (splitextRev p.data.reverse).1 ≠ [] := ext_ne_empty_iff.mp h
  have hkey := splitextRev_lower p.data.reverse hne
  rw [splitext_mk]
  have hdata : ((splitext p).1.data ++ lowerChars (splitext p).2.data).reverse
      = lowerChars (splitextRev p.data.reverse).1 ++ (splitextRev p.data.reverse).2 := by
    rw [splitext_data_root, splitext_data_ext]
    simp [lowerChars]
  rw [hdata, hkey]
  rw [Prod.ext_iff]
  constructor
  · exact String.ext rfl
  · apply String.ext
    show (lowerChars (splitextRev p.data.reverse).1).reverse = _
    rw [splitext_data_ext]
    simp [lowerChars]

theorem lowerChars_idem (l : List Char) : lowerChars (lowerChars l) = lowerChars l := by
  simp only [lowerChars, List.map_map]
  exact List.map_congr_left (fun a _ => toLower_idem a)

theorem lowerChars_len (l : List Char) : (lowerChars l).length = l.length := by
  simp [lowerChars]

/-- Idempotence of the storage normalization. -/
theorem normalize_filename_idem (x : String) :
    normalize_filename (normalize_filename x) = normalize_filename x := by
  by_cases h : (splitext x).2 = ""
  · rw [normalize_filename_noext h, normalize_filename_noext h]
  · have hs := splitext_normalize (p := x) h
    have h2 : (splitext (normalize_filename x)).2 ≠ "" := by
      rw [hs]
      intro hcon
      apply h
      apply String.ext
      have hd := congrArg String.data hcon
      simp only [lowerChars, List.map_eq_nil_iff] at hd
      simp [hd]
    rw [normalize_filename_eq h2, hs]
    rw [normalize_filename_eq h]
    apply String.ext
    show (splitext x).1.data ++ lowerChars (lowerChars (splitext x).2.data) = _
    rw [lowerChars_idem]

/-- The extension of any normalized filename is entirely lowercase. -/
theorem normalize_filename_ext_lower (x : String) :
    ∀ c ∈ (splitext (normalize_filename x)).2.data, Char.toLower c = c := by
  by_cases h : (splitext x).2 = ""
  · rw [normalize_filename_noext h, h]
    intro c hc
    simp at hc
  · rw [splitext_normalize h]
    intro c hc
    simp only [lowerChars, List.mem_map] at hc
    obtain ⟨a, _, rfl⟩ := hc
    exact toLower_idem a

theorem drop_eq_of_append {α : Type} {A B l : List α} (h : l = A ++ B) :
    l.drop A.length = B := by
  subst h
  exact List.drop_left _ _

/-- On non-dotfile names the storage normalization agrees with the spec's wording. -/
theorem normalize_filename_eq_spec {x : String} (h : dotfileSegment x = false) :
    normalize_filename x = spec_normalize x := by
  by_cases hdot : (x.data.reverse.takeWhile (· != '/')).contains '.'
  · -- there is a period in the final segment; by h some non-period precedes the last one
    have hany : (((x.data.reverse.takeWhile (· != '/')).dropWhile (· != '.')).tail.any
        (· != '.')) = true := by
      unfold dotfileSegment at h
      simp only [Bool.and_eq_false_iff] at h
      rcases h with h | h
      · rw [hdot] at h
        exact Bool.noConfusion h
      · simpa using h
    have hext : (splitext x).2 ≠ "" := by
      rw [ext_ne_empty_iff, splitextRev_eq_pos _ hany]
      simp
    rw [normalize_filename_eq hext]
    unfold spec_normalize
    simp only []
    rw [if_pos hdot]
    apply String.ext
    show (splitext x).1.data ++ lowerChars (splitext x).2.data = _
    rw [splitext_data_root, splitext_data_ext, splitextRev_eq_pos _ hany]
    cases hrest : (x.data.reverse.takeWhile (· != '/')).dropWhile (· != '.') with
    | nil => rw [hrest] at hany; simp at hany
    | cons d tl =>
      have hd : d = '.' := by simpa using dropWhile_head_false hrest
      subst hd
      simp only [List.tail_cons]
      -- r decomposes as extRev ++ '.' :: tl ++ tailr
      have hseg : (x.data.reverse.takeWhile (· != '/')).takeWhile (· != '.') ++ ('.' :: tl)
          = x.data.reverse.takeWhile (· != '/') := by
        rw [← hrest]
        exact List.takeWhile_append_dropWhile _ _
      have hr : ((x.data.reverse.takeWhile (· != '/')).takeWhile (· != '.') ++ ('.' :: tl))
          ++ x.data.reverse.dropWhile (· != '/') = x.data.reverse := by
        rw [hseg]
        exact List.takeWhile_append_dropWhile _ _
      have hdrop : x.data.reverse.drop
          ((x.data.reverse.takeWhile (· != '/')).takeWhile (· != '.')).length
          = ('.' :: tl) ++ x.data.reverse.dropWhile (· != '/') :=
        drop_eq_of_append (hr.symm.trans (List.append_assoc _ _ _))
      rw [hdrop]
      simp [lowerChars]
  · -- no period in the final segment: both sides return the name unchanged
    have hrest : (x.data.reverse.takeWhile (· != '/')).dropWhile (· != '.') = [] := by
      rw [List.dropWhile_eq_nil_iff]
      intro y hy
      have : y ≠ '.' := by
        intro hcon
        subst hcon
        exact hdot (List.elem_eq_true_of_mem hy)
      simpa using this
    have hext : (splitext x).2 = "" := by
      have : (splitextRev x.data.reverse).1 = [] := by
        rw [splitextRev_eq_neg]
        rw [hrest]
        simp
      apply String.ext
      rw [splitext_data_ext, this]
      rfl
    rw [normalize_filename_noext hext]
    unfold spec_normalize
    simp only []
    rw [if_neg hdot]

theorem splitext_ne_of_ext_ne {s : String} (h : (splitext s).2 ≠ "") : s ≠ "" := by
  intro hcon
  subst hcon
  exact h (by decide)

theorem confirmReachable_nodup {st : ConfirmState} (h : ConfirmReachable st) :
    st.records.Nodup := by
  induction h with
  | init => exact List.nodup_nil
  | step u p hr ih =>
    unfold confirm_registration
    split
    · exact ih
    · rename_i hmem
      exact List.nodup_cons.mpr ⟨hmem, ih⟩

/-- String-level decomposition: root ++ ext = the input. -/
theorem splitext_append_str (p : String) :
    (splitext p).1.data ++ (splitext p).2.data = p.data := by
  rw [splitext_data_root, splitext_data_ext]
  have h2 := congrArg List.reverse (splitextRev_append p.data.reverse)
  simp only [List.reverse_append, List.reverse_reverse] at h2
  exact h2

theorem lowerChars_append (a b : List Char) :
    lowerChars (a ++ b) = lowerChars a ++ lowerChars b := by
  simp [lowerChars]

/-- Every file selected by the scan has a target path equal to its source path
up to character case, so the `old_path.lower() == new_path.lower()` branch is
taken for every scanned file and the target-exists check below it is
unreachable. -/
theorem scanned_case_insensitive_equal (walk : List ScannedFile) (fi : FileInfo)
    (h : fi ∈ scanFiles walk) :
    lowerChars fi.full_old_path.data = lowerChars fi.full_new_path.data := by
  unfold scanFiles at h
  rw [List.mem_filterMap] at h
  obtain ⟨sf, _, hsf⟩ := h
  simp only [] at hsf
  split at hsf
  · rename_i hcond
    cases hsf
    show lowerChars (pathJoin sf.dir sf.filename).data = lowerChars (pathJoin sf.dir _).data
    unfold pathJoin
    show lowerChars (sf.dir.data ++ '/' :: sf.filename.data)
        = lowerChars (sf.dir.data ++ '/' :: ((splitext sf.filename).1.data
            ++ lowerChars (splitext sf.filename).2.data))
    have hfn : sf.filename.data
        = (splitext sf.filename).1.data ++ (splitext sf.filename).2.data :=
      (splitext_append_str sf.filename).symm
    conv_lhs => rw [hfn]
    have hcons : ∀ l : List Char, lowerChars ('/' :: l) = '/' :: lowerChars l := by
      intro l
      simp [lowerChars]
    rw [lowerChars_append, lowerChars_append, hcons, hcons, lowerChars_append,
      lowerChars_append, lowerChars_idem]
  · cases hsf

/-- C4: The filename normalization function is idempotent. -/
theorem c4_normalize_filename_idempotent (x : String) :
    normalize_filename (normalize_filename x) = normalize_filename x :=
  normalize_filename_idem x

/-- C3 (counterexample): on the dotfile `".JPG"` the code returns the name
unchanged, while the spec's definition of the extension (the substring after
the final segment's last period) demands `".jpg"`. -/
theorem c3_normalize_spec_counterexample :
    normalize_filename ".JPG" ≠ spec_normalize ".JPG" ∧
    normalize_filename ".JPG" = ".JPG" ∧ spec_normalize ".JPG" = ".jpg" := by
  refine ⟨by decide, by decide, by decide⟩

/-- C3 (amended): except on dotfile-like names (final path segment all periods
up to its last period), the storage normalization lowercases exactly the
substring following the final path segment's last period, preserving the base
name and directories; names without a period in the final segment are
unchanged. -/
theorem c3_normalize_matches_spec (x : String) (h : dotfileSegment x = false) :
    normalize_filename x = spec_normalize x :=
  normalize_filename_eq_spec h

theorem c3_normalize_matches_spec_witness :
    dotfileSegment "dir/MyFile.PNG" = false ∧
    normalize_filename "dir/MyFile.PNG" = spec_normalize "dir/MyFile.PNG" ∧
    normalize_filename "Photo.JPG" = "Photo.jpg" ∧
    normalize_filename "dir/MyFile.PNG" = "dir/MyFile.png" ∧
    normalize_filename "noext" = "noext" :=
  ⟨by decide, c3_normalize_matches_spec "dir/MyFile.PNG" (by decide),
    by decide, by decide, by decide⟩

/-- C9: the storage backend's save is exactly the parent save applied to the
normalized name, and the normalized name's extension contains no character
changed by lowercasing (no uppercase ASCII letter). -/
theorem c9_storage_save_normalizes {α : Type} (parentSave : String → α) (name : String) :
    storage_save parentSave name = parentSave (normalize_filename name) ∧
    ((splitext (normalize_filename name)).2.data.all
      (fun c => Char.toLower c == c)) = true := by
  refine ⟨rfl, ?_⟩
  rw [List.all_eq_true]
  intro c hc
  exact beq_iff_eq.mpr (normalize_filename_ext_lower name c hc)

/-- C5: any code that is not a nonempty digit string is rejected: the state is
untouched and the message contains the offending input and the phrase
"is not a valid user ID (must be numeric)". -/
theorem c5_checkin_rejects_non_numeric (code : String) (st : CheckinState)
    (h : pyIsDigit code = false) :
    (ajaxbarcodecheckin code st).1 = st ∧
    code.data <:+: (ajaxbarcodecheckin code st).2.data ∧
    ("is not a valid user ID (must be numeric)").data
      <:+: (ajaxbarcodecheckin code st).2.data := by
  unfold ajaxbarcodecheckin
  rw [h]
  simp only [Bool.not_false, if_true]
  refine ⟨by trivial, ?_, ?_⟩
  · exact ⟨[], (" is not a valid user ID (must be numeric)").data, by simp⟩
  · refine ⟨(code ++ " ").data, [], ?_⟩
    simp

theorem c5_checkin_rejects_non_numeric_witness :
    pyIsDigit "12.34" = false ∧
    (ajaxbarcodecheckin "12.34" ⟨[1234], [1234], []⟩).1 = ⟨[1234], [1234], []⟩ ∧
    "12.34".data <:+: (ajaxbarcodecheckin "12.34" ⟨[1234], [1234], []⟩).2.data ∧
    ("is not a valid user ID (must be numeric)").data
      <:+: (ajaxbarcodecheckin "12.34" ⟨[1234], [1234], []⟩).2.data := by
  have h := c5_checkin_rejects_non_numeric "12.34" ⟨[1234], [1234], []⟩ (by decide)
  exact ⟨by decide, h.1, h.2.1, h.2.2⟩

/-- C6: a valid, not-yet-attended student is marked attended with a
"is now checked in" message; repeating the request reports
"is already checked in" and leaves the state exactly as after the first. -/
theorem c6_checkin_twice_single_state_change (code : String) (st : CheckinState)
    (hdig : pyIsDigit code = true)
    (hu : pyInt code ∈ st.users) (hs : pyInt code ∈ st.students)
    (hna : pyInt code ∉ st.attended) :
    (ajaxbarcodecheckin code st).1.attended = pyInt code :: st.attended ∧
    (ajaxbarcodecheckin code st).1.users = st.users ∧
    (ajaxbarcodecheckin code st).1.students = st.students ∧
    ("is now checked in").data <:+: (ajaxbarcodecheckin code st).2.data ∧
    (ajaxbarcodecheckin code (ajaxbarcodecheckin code st).1).1
      = (ajaxbarcodecheckin code st).1 ∧
    ("is already checked in").data
      <:+: (ajaxbarcodecheckin code (ajaxbarcodecheckin code st).1).2.data := by
  have h1 : ajaxbarcodecheckin code st
      = ({ st with attended := pyInt code :: st.attended },
          code ++ " is now checked in") := by
    unfold ajaxbarcodecheckin
    simp [hdig, hu, hs, hna]
  have h2 : ajaxbarcodecheckin code { st with attended := pyInt code :: st.attended }
      = ({ st with attended := pyInt code :: st.attended },
          code ++ " is already checked in") := by
    unfold ajaxbarcodecheckin
    simp [hdig, hu, hs, List.mem_cons]
  rw [h1]
  refine ⟨rfl, rfl, rfl, ?_, ?_, ?_⟩
  · refine ⟨(code ++ " ").data, [], ?_⟩
    simp
  · show (ajaxbarcodecheckin code { st with attended := pyInt code :: st.attended }).1
        = ({ st with attended := pyInt code :: st.attended } : CheckinState)
    rw [h2]
  · show ("is already checked in").data <:+:
      (ajaxbarcodecheckin code { st with attended := pyInt code :: st.attended }).2.data
    rw [h2]
    refine ⟨(code ++ " ").data, [], ?_⟩
    simp

theorem c6_checkin_twice_single_state_change_witness :
    (ajaxbarcodecheckin "7" ⟨[7], [7], []⟩).1.attended = [7] ∧
    (ajaxbarcodecheckin "7" (ajaxbarcodecheckin "7" ⟨[7], [7], []⟩).1).1
      = (ajaxbarcodecheckin "7" ⟨[7], [7], []⟩).1 ∧
    ("is now checked in").data <:+: (ajaxbarcodecheckin "7" ⟨[7], [7], []⟩).2.data ∧
    ("is already checked in").data
      <:+: (ajaxbarcodecheckin "7" (ajaxbarcodecheckin "7" ⟨[7], [7], []⟩).1).2.data := by
  have h := c6_checkin_twice_single_state_change "7" ⟨[7], [7], []⟩ (by decide)
    (by decide) (by decide) (by decide)
  exact ⟨h.1, h.2.2.2.2.1, h.2.2.2.1, h.2.2.2.2.2⟩

/-- A duplicate-free list holds each element at most once. -/
theorem nodup_count_le_one :
    ∀ (l : List (Nat × Nat)), l.Nodup → ∀ a : Nat × Nat, l.count a ≤ 1
  | [], _, a => by simp
  | x :: xs, h, a => by
    rcases List.nodup_cons.mp h with ⟨hx, hxs⟩
    rw [List.count_cons]
    by_cases hax : a = x
    · subst hax
      rw [List.count_eq_zero_of_not_mem hx]
      simp
    · have hrec := nodup_count_le_one xs hxs a
      have hbeq : (x == a) = false := by
        simp only [beq_eq_false_iff_ne, ne_eq]
        exact fun hc => hax hc.symm
      rw [hbeq]
      simpa using hrec

/-- C2: confirming with no existing record creates exactly one record and one
email; a second confirmation is a no-op; and every reachable state has at most
one record per (user, program). -/
theorem c2_confirm_registration_idempotent (u p : Nat) (st : ConfirmState)
    (hno : (u, p) ∉ st.records) (hmail : st.emails.count (u, p) = 0) :
    (confirm_registration u p st).records = (u, p) :: st.records ∧
    (confirm_registration u p st).emails = (u, p) :: st.emails ∧
    (∀ st2 : ConfirmState, (u, p) ∈ st2.records → confirm_registration u p st2 = st2) ∧
    (confirm_registration u p (confirm_registration u p st)).records.count (u, p) = 1 ∧
    (confirm_registration u p (confirm_registration u p st)).emails.count (u, p) = 1 ∧
    (∀ st2 : ConfirmState, ConfirmReachable st2 →
      ∀ u2 p2 : Nat, st2.records.count (u2, p2) ≤ 1) := by
  have hstep : confirm_registration u p st
      = { records := (u, p) :: st.records, emails := (u, p) :: st.emails } := by
    unfold confirm_registration
    rw [if_neg hno]
  have hnoop : ∀ st2 : ConfirmState, (u, p) ∈ st2.records → confirm_registration u p st2 = st2 := by
    intro st2 hmem
    unfold confirm_registration
    rw [if_pos hmem]
  refine ⟨by rw [hstep], by rw [hstep], hnoop, ?_, ?_, ?_⟩
  · rw [hstep, hnoop _ (by exact List.mem_cons_self _ _)]
    show ((u, p) :: st.records).count (u, p) = 1
    rw [List.count_cons_self, List.count_eq_zero_of_not_mem hno]
  · rw [hstep, hnoop _ (by exact List.mem_cons_self _ _)]
    show ((u, p) :: st.emails).count (u, p) = 1
    rw [List.count_cons_self, hmail]
  · intro st2 hr u2 p2
    exact nodup_count_le_one st2.records (confirmReachable_nodup hr) (u2, p2)

theorem c2_confirm_registration_idempotent_witness :
    (confirm_registration 1 2 ⟨[], []⟩).records = [(1, 2)] ∧
    (confirm_registration 1 2 ⟨[], []⟩).emails = [(1, 2)] ∧
    (confirm_registration 1 2 (confirm_registration 1 2 ⟨[], []⟩)).records.count (1, 2) = 1 ∧
    (confirm_registration 1 2 (confirm_registration 1 2 ⟨[], []⟩)).emails.count (1, 2) = 1 := by
  have h := c2_confirm_registration_idempotent 1 2 ⟨[], []⟩ (by decide) (by decide)
  exact ⟨h.1, h.2.1, h.2.2.2.1, h.2.2.2.2.1⟩

/-- C7: with `--dry-run`, the command reports the planned renames and returns
the filesystem and the database exactly as given, for every database type and
every reference-update function. -/
theorem c7_dry_run_preserves_state {δ : Type} (walk : List ScannedFile) (fs : FileSys)
    (db : δ) (updateRefs : List FileInfo → δ → δ) :
    commandHandle true walk fs db updateRefs
      = (fs, db, (scanFiles walk).map (fun fi => (fi.old_path, fi.new_filename))) := by
  unfold commandHandle
  by_cases h : (scanFiles walk).isEmpty = true
  · rw [if_pos h]
    rw [List.isEmpty_iff] at h
    rw [h]
    rfl
  · rw [if_neg h, if_pos rfl]

/-- C1 (failing input): a directory holding both `Photo.JPG` (content "A") and
`Photo.jpg` (content "B").  The target exists and differs from the source, yet
the run does not skip: the case-insensitive comparison matches first, the
temp-name dance runs, and the pre-existing `Photo.jpg` is replaced by the
contents of `Photo.JPG`. -/
theorem c1_migration_overwrites_existing_target :
    fsExists [("m/Photo.JPG", "A"), ("m/Photo.jpg", "B")] "m/Photo.jpg" = true ∧
    ("m/Photo.jpg" : String) ≠ "m/Photo.JPG" ∧
    (scanFiles [⟨"m", "Photo.JPG"⟩]).map (fun fi => fi.full_new_path) = ["m/Photo.jpg"] ∧
    (renamePhase [("m/Photo.JPG", "A"), ("m/Photo.jpg", "B")]
      (scanFiles [⟨"m", "Photo.JPG"⟩])).2.2 = [RenameAction.caseOnly] ∧
    (commandHandle false [⟨"m", "Photo.JPG"⟩] [("m/Photo.JPG", "A"), ("m/Photo.jpg", "B")]
      () (fun _ _ => ())).1 = [("m/Photo.jpg", "A")] ∧
    fsGet (commandHandle false [⟨"m", "Photo.JPG"⟩]
      [("m/Photo.JPG", "A"), ("m/Photo.jpg", "B")] () (fun _ _ => ())).1 "m/Photo.jpg"
      = some "A" := by
  refine ⟨by decide, by decide, by decide, by decide, by decide, by decide⟩

/-- C10: whenever the stripped name has a nonempty extension and the wrapped
convert function's result has no slash, the patched conversion returns the
stripped root with the lowercased extension, independently of the convert
function. -/
theorem c10_filebrowser_patch_preserves_basename (convert : String → String) (name : String)
    (hext : (splitext (pyStrip name)).2 ≠ "")
    (hconv : (convert (pyStrip name)).data.contains '/' = false) :
    preserve_basename_lowercase_extension convert name
      = ⟨(splitext (pyStrip name)).1.data ++ lowerChars (splitext (pyStrip name)).2.data⟩ ∧
    (∀ convert2 : String → String, (convert2 (pyStrip name)).data.contains '/' = false →
      preserve_basename_lowercase_extension convert name
        = preserve_basename_lowercase_extension convert2 name) := by
  have hmain : ∀ cf : String → String, (cf (pyStrip name)).data.contains '/' = false →
      preserve_basename_lowercase_extension cf name
        = ⟨(splitext (pyStrip name)).1.data ++ lowerChars (splitext (pyStrip name)).2.data⟩ := by
    intro cf hcf
    unfold preserve_basename_lowercase_extension
    simp only []
    rw [if_neg (splitext_ne_of_ext_ne hext), if_neg (by rw [hcf]; exact Bool.noConfusion),
      if_pos hext]
  refine ⟨hmain convert hconv, fun convert2 hconv2 => ?_⟩
  rw [hmain convert hconv, hmain convert2 hconv2]

theorem c10_filebrowser_patch_preserves_basename_witness :
    preserve_basename_lowercase_extension (fun s => s ++ "XX") " Photo.JPG " = "Photo.jpg" ∧
    preserve_basename_lowercase_extension (fun s => s ++ "XX") " Photo.JPG "
      = preserve_basename_lowercase_extension (fun _ => "Other-Name.gif") " Photo.JPG " := by
  have h := c10_filebrowser_patch_preserves_basename (fun s => s ++ "XX") " Photo.JPG "
    (by decide) (by decide)
  refine ⟨?_, h.2 (fun _ => "Other-Name.gif") (by decide)⟩
  rw [h.1]
  decide

theorem applyMapping_err (orig : String) (fb : Bool) :
    ∀ (mapping : List (String × String)) (cur : String),
    (applyMapping orig fb mapping cur).2.2
      = (fb && mapping.any (fun en => hasSub orig.data en.1.data))
  | [], cur => by simp [applyMapping]
  | (o, n) :: rest, cur => by
    unfold applyMapping
    by_cases hm : hasSub orig.data o.data = true
    · rw [if_pos hm]
      by_cases hfb : fb = true
      · simp [hfb, hm]
      · have hfb2 : fb = false := by
          cases fb
          · rfl
          · exact absurd rfl hfb
        simp [hfb2, applyMapping_err orig false rest]
    · rw [if_neg hm]
      rw [applyMapping_err orig fb rest cur]
      have hm2 : hasSub orig.data o.data = false := by
        cases hv : hasSub orig.data o.data
        · rfl
        · exact absurd hv hm
      simp [hm2]

theorem processField_err (mapping : List (String × String)) (v : String) (fb : Bool) :
    (processField mapping v fb).2.2
      = (!(v == "") && fb && mapping.any (fun en => hasSub v.data en.1.data)) := by
  unfold processField
  by_cases hv : v = ""
  · simp [hv]
  · rw [if_neg hv, applyMapping_err]
    have hb : (v == "") = false := by
      simp only [beq_eq_false_iff_ne, ne_eq]
      exact hv
    rw [hb]
    simp

theorem processFields_errs (mapping : List (String × String)) (mname : String) (pk : Nat)
    (failing : List String) :
    ∀ fields : List (String × String),
    (processFields mapping mname pk failing fields).2.2
      = (fields.filter (fun fv => fieldFails mapping failing fv.1 fv.2)).map
          (fun fv => updateErrMsg mname fv.1 pk)
  | [] => rfl
  | (fname, v) :: rest => by
    unfold processFields
    simp only [List.filter_cons]
    rw [processField_err]
    have hfe : fieldFails mapping failing fname v
        = (!(v == "") && decide (fname ∈ failing)
            && mapping.any (fun en => hasSub v.data en.1.data)) := rfl
    by_cases hf : fieldFails mapping failing fname v = true
    · rw [hfe] at hf
      rw [hf]
      have hf2 : fieldFails mapping failing (fname, v).1 (fname, v).2 = true := by
        rw [hfe] at *
        exact hf
      rw [if_pos hf2, List.map_cons]
      rw [processFields_errs mapping mname pk failing rest]
      rfl
    · have hf0 : (!(v == "") && decide (fname ∈ failing)
          && mapping.any (fun en => hasSub v.data en.1.data)) = false := by
        rw [← hfe]
        cases hv : fieldFails mapping failing fname v
        · rfl
        · exact absurd hv hf
      rw [hf0]
      have hf2 : ¬ (fieldFails mapping failing (fname, v).1 (fname, v).2 = true) := by
        exact hf
      rw [if_neg hf2]
      rw [processFields_errs mapping mname pk failing rest]
      rfl

theorem processModel_errs (mapping : List (String × String)) (m : DBModel) :
    (processModel mapping m).2.2 = modelErrors mapping m := by
  unfold processModel modelErrors objErrors
  generalize m.objs = objs
  induction objs with
  | nil => rfl
  | cons obj rest ih =>
    simp only [List.foldr_cons, List.map_cons, List.flatten_cons]
    rw [← ih]
    show (processObj mapping m.mname obj).2.2 ++ _ = _
    unfold processObj
    rw [processFields_errs]

theorem processApp_errs (mapping : List (String × String)) (ms : List DBModel) :
    (processApp mapping ms).2.2 = (ms.map (modelErrors mapping)).flatten := by
  unfold processApp
  induction ms with
  | nil => rfl
  | cons m rest ih =>
    simp only [List.foldr_cons, List.map_cons, List.flatten_cons]
    rw [← ih]
    show (processModel mapping m).2.2 ++ _ = _
    rw [processModel_errs]

/-- C8: an error while enumerating apps or models aborts the reference fixup
by re-raising, while per-object save failures are collected and reported:
on a run where enumeration succeeds, the result is `ok` no matter which saves
fail, and the error summary lists exactly the failing fields. -/
theorem c8_update_database_references_error_handling (renamed : List FileInfo) :
    (∀ e : String, updateDatabaseReferences renamed (Except.error e) = Except.error e) ∧
    (∀ cfgs : List AppCfg, (∃ a ∈ cfgs, ∃ e, a.models = Except.error e) →
      ∃ e, updateDatabaseReferences renamed (Except.ok cfgs) = Except.error e) ∧
    (∀ mss : List (List DBModel), ∃ dbs cnt,
      updateDatabaseReferences renamed
        (Except.ok (mss.map (fun ms => AppCfg.mk (Except.ok ms))))
        = Except.ok (dbs, cnt, collectedErrors (fileMapping renamed) mss)) := by
  have udrStep_err : ∀ (m : List (String × String)) (a : AppCfg)
      (acc : Except String (List (List DBModel) × Nat × List String)) (e : String),
      a.models = Except.error e → udrStep m a acc = Except.error e := by
    intro m a acc e h
    unfold udrStep
    rw [h]
    cases acc with
    | error e2 => rfl
    | ok r => rfl
  have udrStep_acc_err : ∀ (m : List (String × String)) (a : AppCfg)
      (e : String), ∃ e2, udrStep m a (Except.error e) = Except.error e2 := by
    intro m a e
    unfold udrStep
    cases a.models with
    | error e3 => exact ⟨e3, rfl⟩
    | ok ms => exact ⟨e, rfl⟩
  refine ⟨fun e => rfl, ?_, ?_⟩
  · intro cfgs h
    induction cfgs with
    | nil => simp at h
    | cons a rest ih =>
      show ∃ e, udrStep (fileMapping renamed) a
        (rest.foldr (udrStep (fileMapping renamed)) (Except.ok ([], 0, []))) = Except.error e
      obtain ⟨a2, hmem, e2, he2⟩ := h
      rcases List.mem_cons.mp hmem with rfl | hmem2
      · exact ⟨e2, udrStep_err _ _ _ _ he2⟩
      · obtain ⟨e3, he3⟩ := ih ⟨a2, hmem2, e2, he2⟩
        have he3b : rest.foldr (udrStep (fileMapping renamed)) (Except.ok ([], 0, []))
            = Except.error e3 := he3
        rw [he3b]
        exact udrStep_acc_err _ _ _
  · intro mss
    induction mss with
    | nil => exact ⟨[], 0, rfl⟩
    | cons ms rest ih =>
      obtain ⟨dbs, cnt, hrec⟩ := ih
      have hrec2 : (rest.map (fun ms => AppCfg.mk (Except.ok ms))).foldr
          (udrStep (fileMapping renamed)) (Except.ok ([], 0, []))
          = Except.ok (dbs, cnt, collectedErrors (fileMapping renamed) rest) := hrec
      refine ⟨(processApp (fileMapping renamed) ms).1 :: dbs,
        (processApp (fileMapping renamed) ms).2.1 + cnt, ?_⟩
      show udrStep (fileMapping renamed) (AppCfg.mk (Except.ok ms))
          ((rest.map (fun ms => AppCfg.mk (Except.ok ms))).foldr
            (udrStep (fileMapping renamed)) (Except.ok ([], 0, []))) = _
      rw [hrec2]
      unfold udrStep
      simp only []
      rw [Except.ok.injEq, Prod.mk.injEq, Prod.mk.injEq]
      refine ⟨rfl, rfl, ?_⟩
      rw [processApp_errs]
      unfold collectedErrors
      simp only [List.map_cons, List.flatten_cons]

theorem c8_update_database_references_error_handling_witness :
    (updateDatabaseReferences [] (Except.error "boom") = Except.error "boom") ∧
    (∃ e, updateDatabaseReferences []
      (Except.ok [AppCfg.mk (Except.error "enum failure")]) = Except.error e) ∧
    (∃ dbs cnt,
      updateDatabaseReferences
        [⟨"m/Photo.JPG", "Photo.JPG", "Photo.jpg", "m/Photo.JPG", "m/Photo.jpg"⟩]
        (Except.ok [AppCfg.mk (Except.ok
          [⟨"Doc", [⟨1, [("file", "m/Photo.JPG")], ["file"]⟩,
                    ⟨2, [("file", "m/Photo.JPG")], []⟩]⟩])])
        = Except.ok (dbs, cnt,
            collectedErrors
              (fileMapping
                [⟨"m/Photo.JPG", "Photo.JPG", "Photo.jpg", "m/Photo.JPG", "m/Photo.jpg"⟩])
              [[⟨"Doc", [⟨1, [("file", "m/Photo.JPG")], ["file"]⟩,
                         ⟨2, [("file", "m/Photo.JPG")], []⟩]⟩]])) := by
  have h := c8_update_database_references_error_handling []
  have h2 := c8_update_database_references_error_handling
    [⟨"m/Photo.JPG", "Photo.JPG", "Photo.jpg", "m/Photo.JPG", "m/Photo.jpg"⟩]
  refine ⟨h.1 "boom", h.2.1 [AppCfg.mk (Except.error "enum failure")]
    ⟨_, List.mem_cons_self _ _, "enum failure", rfl⟩, ?_⟩
  exact h2.2.2 [[⟨"Doc", [⟨1, [("file", "m/Photo.JPG")], ["file"]⟩,
                          ⟨2, [("file", "m/Photo.JPG")], []⟩]⟩]]

end ESPWeb
